import Mathlib

/-!
Verification of the Cairo trace profiler (`src/profile_cairo_streamlit.py`).

The embedding models the core pipeline of the program:
`infer_function_scope` (offset → scope resolution with neighbor probing),
`parse_trace_and_profile` (pc parsing and two-phase aggregation), and the
descending sort by step count performed in `main`.

Python dictionaries are modelled as association lists that preserve
insertion order (as Python dicts do); integers are unbounded `Int`/`Nat`
exactly as Python ints; a raised exception is an `Except.error`.
-/

namespace CairoProfiler

/-- A value of the `instruction_locations` mapping of `program.json`:
an object whose `accessible_scopes` field may be absent (`none`), since the
code reads it with `info.get("accessible_scopes", [])`. Other fields of the
object are never read and are not modelled. -/
structure DebugEntry where
  accessible_scopes : Option (List String)
deriving DecidableEq

/-- `offset_to_info`: the mapping from integer offset to debug entry, as a
lookup function (`None` models `offset not in offset_to_info`). -/
def DebugIndex : Type := Int → Option DebugEntry

/-- Python `info.get("accessible_scopes", [])`: a missing field reads as `[]`. -/
def scopesOf (e : DebugEntry) : List String := e.accessible_scopes.getD []

/-- The scope list the index associates to an offset: `[]` both when the
offset is absent and when its entry has an absent/empty scopes field. -/
def entryScopes (idx : DebugIndex) (o : Int) : List String :=
  match idx o with
  | some e => scopesOf e
  | none => []

/-- The `for diff in [1, -1, 2, -2]` loop of `infer_function_scope`:
return the last scope of the first neighbor present in the index with a
non-empty scope list; a neighbor that is absent, or present with an
absent/empty scopes field, is skipped. -/
def probeNeighbors (offset : Int) (idx : DebugIndex) : List Int → String
  | [] => "unmapped"
  | diff :: rest =>
    match idx (offset + diff) with
    | some info =>
      if scopesOf info ≠ [] then (scopesOf info).getLast! else probeNeighbors offset idx rest
    | none => probeNeighbors offset idx rest

/-- `infer_function_scope(offset, offset_to_info)`: direct hit returns
`accessible_scopes[-1]` when non-empty, `"unmapped"` when empty; on a miss
the neighbors `+1, -1, +2, -2` are probed in that order. Total: it never
raises. -/
def infer_function_scope (offset : Int) (idx : DebugIndex) : String :=
  match idx offset with
  | some info =>
    if scopesOf info ≠ [] then (scopesOf info).getLast! else "unmapped"
  | none => probeNeighbors offset idx [1, -1, 2, -2]

/-- Value of a character as a digit, as Python `int` accepts them
(`0`-`9`, `a`-`z`, `A`-`Z`); the caller checks the value against the base. -/
def digitValue (c : Char) : Option Nat :=
  if '0' ≤ c ∧ c ≤ '9' then some (c.toNat - '0'.toNat)
  else if 'a' ≤ c ∧ c ≤ 'z' then some (c.toNat - 'a'.toNat + 10)
  else if 'A' ≤ c ∧ c ≤ 'Z' then some (c.toNat - 'A'.toNat + 10)
  else none

/-- Accumulate base-`base` digits; any character that is not a digit of the
base makes the whole parse fail, as `int` raises `ValueError`. -/
def parseDigitsAux (base : Nat) : Nat → List Char → Option Nat
  | acc, [] => some acc
  | acc, c :: cs =>
    match digitValue c with
    | some d => if d < base then parseDigitsAux base (acc * base + d) cs else none
    | none => none

/-- A non-empty run of base-`base` digits (`int("")` is a `ValueError`). -/
def parseDigits (base : Nat) (cs : List Char) : Option Nat :=
  if cs = [] then none else parseDigitsAux base 0 cs

/-- Python `int(s, 16)` accepts an optional `0x`/`0X` prefix before the
digits. -/
def stripHex (cs : List Char) : List Char :=
  match cs with
  | '0' :: 'x' :: rest => rest
  | '0' :: 'X' :: rest => rest
  | _ => cs

/-- Python `int(s, base)` for `base` 10 or 16, on strings without
whitespace or underscores (the trace rows the code handles): an optional
sign, then for base 16 an optional `0x`/`0X` prefix, then one or more
digits of the base. `none` models the `ValueError` raised otherwise. -/
def pyInt (s : String) (base : Nat) : Option Int :=
  match s.toList with
  | '-' :: rest =>
    (parseDigits base (if base = 16 then stripHex rest else rest)).map (fun n => -(n : Int))
  | '+' :: rest =>
    (parseDigits base (if base = 16 then stripHex rest else rest)).map (fun n => (n : Int))
  | cs => (parseDigits base (if base = 16 then stripHex cs else cs)).map (fun n => (n : Int))

/-- Python `pc_str.startswith("0x")` (case-sensitive). -/
def startsWith0x (s : String) : Bool :=
  match s.toList with
  | '0' :: 'x' :: _ => true
  | _ => false

/-- `int(pc_str, 16) if pc_str.startswith("0x") else int(pc_str)`. -/
def parsePc (s : String) : Option Int :=
  if startsWith0x s then pyInt s 16 else pyInt s 10

/-- `m[k] += c` on a `defaultdict(int)` modelled as an insertion-ordered
association list: an absent key is appended at the end with value `c`. -/
def bump {α : Type} [DecidableEq α] : List (α × Nat) → α → Nat → List (α × Nat)
  | [], k, c => [(k, c)]
  | p :: rest, k, c =>
    if p.1 = k then (p.1, p.2 + c) :: rest else p :: bump rest k c

/-- Dictionary lookup with default 0, as `defaultdict(int)` reads. -/
def lookupCount {α : Type} [DecidableEq α] : List (α × Nat) → α → Nat
  | [], _ => 0
  | p :: rest, k => if p.1 = k then p.2 else lookupCount rest k

/-- Sum of all counts of the mapping. -/
def totalCount {α : Type} (m : List (α × Nat)) : Nat :=
  (m.map Prod.snd).sum

/-- The reading loop of `parse_trace_and_profile`: parse each `pc` field
and bump `pc_counts`; an unparsable value raises, aborting the whole pass —
the error carries the offending literal, as the `ValueError` message does. -/
def readTrace : List String → List (Int × Nat) → Except String (List (Int × Nat))
  | [], acc => Except.ok acc
  | s :: rest, acc =>
    match parsePc s with
    | some pc => readTrace rest (bump acc pc 1)
    | none => Except.error s

/-- `pc_counts` built from an already-parsed pc sequence. -/
def pcCountsOf (pcs : List Int) : List (Int × Nat) :=
  pcs.foldl (fun m pc => bump m pc 1) []

/-- The second loop of `parse_trace_and_profile`: one resolution per
distinct offset, folding that offset's total count into `scope_counts`. -/
def scopeCountsOf (idx : DebugIndex) (pcc : List (Int × Nat)) : List (String × Nat) :=
  pcc.foldl (fun m oc => bump m (infer_function_scope oc.1 idx) oc.2) []

/-- `parse_trace_and_profile(trace_csv, offset_to_info, _)` on the list of
`pc` fields of the rows: read and count, then aggregate by inferred scope. -/
def parse_trace_and_profile (idx : DebugIndex) (rows : List String) :
    Except String (List (String × Nat)) :=
  (readTrace rows []).map (fun pcc => scopeCountsOf idx pcc)

/-- The naive per-record loop `parse_trace_and_profile` is compared
against: resolve the scope of every individual record and add 1. -/
def naive_profile (idx : DebugIndex) (pcs : List Int) : List (String × Nat) :=
  pcs.foldl (fun m pc => bump m (infer_function_scope pc idx) 1) []

/-- `sorted(scope_counts.items(), key=lambda x: -x[1])` from `main`:
Python's sort is stable, so this is the stable sort by descending count,
here as insertion sort placing each element before the first earlier
element of not-larger count. -/
def rank (m : List (String × Nat)) : List (String × Nat) :=
  List.insertionSort (fun a b => b.2 ≤ a.2) m

/-- Lexicographic comparison of character lists (Python string `<=`). -/
def charsLe : List Char → List Char → Bool
  | [], _ => true
  | _ :: _, [] => false
  | a :: as, b :: bs => if a < b then true else if b < a then false else charsLe as bs

/-- Lexicographic comparison of scope identifiers. -/
def strLe (a b : String) : Bool := charsLe a.toList b.toList

/-- The ordering the spec claims for ties: adjacent pairs of equal count
carry lexically ascending scope identifiers. -/
def lexTiesAsc : List (String × Nat) → Bool
  | x :: y :: r => (x.2 ≠ y.2 || strLe x.1 y.1) && lexTiesAsc (y :: r)
  | _ => true

/-- Adjacent counts are descending. -/
def descByCount : List (String × Nat) → Bool
  | x :: y :: r => decide (y.2 ≤ x.2) && descByCount (y :: r)
  | _ => true

/-- A small sample index exercised by the witnesses: offsets 0, 3 and 5
carry scopes, 7 has an entry without the `accessible_scopes` field, 20 an
entry with an empty scope list. -/
def sIdx : DebugIndex := fun o =>
  if o = 0 then some ⟨some ["a.b"]⟩
  else if o = 3 then some ⟨some ["x.y"]⟩
  else if o = 5 then some ⟨some ["a.c"]⟩
  else if o = 7 then some ⟨none⟩
  else if o = 20 then some ⟨some []⟩
  else none

/-- `getLast!` on a non-empty list is its last element. -/
theorem getLastBang_eq {l : List String} (h : l ≠ []) : l.getLast! = l.getLast h := by
  cases l with
  | nil => exact absurd rfl h
  | cons a as => simp [List.getLast!]

/-- The probe loop stops at a neighbor present with non-empty scopes. -/
theorem probeNeighbors_hit (idx : DebugIndex) (offset d : Int) (rest : List Int)
    (h : entryScopes idx (offset + d) ≠ []) :
    probeNeighbors offset idx (d :: rest) = (entryScopes idx (offset + d)).getLast h := by
  cases he : idx (offset + d) with
  | none => exact absurd (by simp [entryScopes, he]) h
  | some e =>
    have hs : entryScopes idx (offset + d) = scopesOf e := by simp [entryScopes, he]
    have h2 : scopesOf e ≠ [] := by rw [← hs]; exact h
    have hp : probeNeighbors offset idx (d :: rest) = (scopesOf e).getLast h2 := by
      simp only [probeNeighbors, he, if_pos h2]
      exact getLastBang_eq h2
    rw [hp]
    exact (List.getLast_congr h h2 hs).symm

/-- The probe loop skips a neighbor that is absent or has empty scopes. -/
theorem probeNeighbors_skip (idx : DebugIndex) (offset d : Int) (rest : List Int)
    (h : entryScopes idx (offset + d) = []) :
    probeNeighbors offset idx (d :: rest) = probeNeighbors offset idx rest := by
  cases he : idx (offset + d) with
  | none => simp [probeNeighbors, he]
  | some e =>
    have hs : scopesOf e = [] := by simpa [entryScopes, he] using h
    simp [probeNeighbors, he, hs]

/-- On a miss, resolution is the probe loop over `[+1, -1, +2, -2]`. -/
theorem infer_of_none (idx : DebugIndex) (offset : Int) (h : idx offset = none) :
    infer_function_scope offset idx = probeNeighbors offset idx [1, -1, 2, -2] := by
  simp only [infer_function_scope, h]

/-- On a hit, resolution looks only at the entry's own scopes. -/
theorem infer_of_some (idx : DebugIndex) (offset : Int) (e : DebugEntry)
    (h : idx offset = some e) :
    infer_function_scope offset idx
      = if scopesOf e ≠ [] then (scopesOf e).getLast! else "unmapped" := by
  simp only [infer_function_scope, h]

/-- C2: for every offset present in the index whose scopes list is
non-empty, `infer_function_scope` returns exactly the last element of that
list; the neighbor probe is never consulted on a direct hit. -/
theorem C2_direct_hit_returns_last (idx : DebugIndex) (offset : Int) (e : DebugEntry)
    (h : idx offset = some e) (hne : scopesOf e ≠ []) :
    infer_function_scope offset idx = (scopesOf e).getLast hne := by
  rw [infer_of_some idx offset e h, if_pos hne]
  exact getLastBang_eq hne

/-- Witness for C2 at offset 0 of the sample index. -/
theorem C2_witness :
    infer_function_scope 0 sIdx
      = (scopesOf ⟨some ["a.b"]⟩).getLast (by decide) :=
  C2_direct_hit_returns_last sIdx 0 ⟨some ["a.b"]⟩ rfl (by decide)

/-- C1: for an offset absent from the index the neighbors are probed in the
fixed order `+1, -1, +2, -2`, and the result is the last scope element of
the first neighbor found in the index with a non-empty scope list; in
particular a non-empty `offset+1` wins over anything at `offset-1`. -/
theorem C1_neighbor_probe_order (idx : DebugIndex) (offset : Int)
    (habs : idx offset = none) :
    (∀ h1 : entryScopes idx (offset + 1) ≠ [],
      infer_function_scope offset idx = (entryScopes idx (offset + 1)).getLast h1) ∧
    (entryScopes idx (offset + 1) = [] →
      ∀ h2 : entryScopes idx (offset + (-1)) ≠ [],
      infer_function_scope offset idx = (entryScopes idx (offset + (-1))).getLast h2) ∧
    (entryScopes idx (offset + 1) = [] → entryScopes idx (offset + (-1)) = [] →
      ∀ h3 : entryScopes idx (offset + 2) ≠ [],
      infer_function_scope offset idx = (entryScopes idx (offset + 2)).getLast h3) ∧
    (entryScopes idx (offset + 1) = [] → entryScopes idx (offset + (-1)) = [] →
      entryScopes idx (offset + 2) = [] →
      ∀ h4 : entryScopes idx (offset + (-2)) ≠ [],
      infer_function_scope offset idx = (entryScopes idx (offset + (-2))).getLast h4) := by
  have hbase := infer_of_none idx offset habs
  refine ⟨fun h1 => ?_, fun e1 h2 => ?_, fun e1 e2 h3 => ?_, fun e1 e2 e3 h4 => ?_⟩
  · rw [hbase, probeNeighbors_hit idx offset 1 [-1, 2, -2] h1]
  · rw [hbase, probeNeighbors_skip idx offset 1 [-1, 2, -2] e1,
      probeNeighbors_hit idx offset (-1) [2, -2] h2]
  · rw [hbase, probeNeighbors_skip idx offset 1 [-1, 2, -2] e1,
      probeNeighbors_skip idx offset (-1) [2, -2] e2,
      probeNeighbors_hit idx offset 2 [-2] h3]
  · rw [hbase, probeNeighbors_skip idx offset 1 [-1, 2, -2] e1,
      probeNeighbors_skip idx offset (-1) [2, -2] e2,
      probeNeighbors_skip idx offset 2 [-2] e3,
      probeNeighbors_hit idx offset (-2) [] h4]

/-- Witness for C1 at offset 4 of the sample index: both 5 and 3 are
present with non-empty scopes and the result comes from `4 + 1 = 5`. -/
theorem C1_witness :
    infer_function_scope 4 sIdx = (entryScopes sIdx (4 + 1)).getLast (by decide) :=
  (C1_neighbor_probe_order sIdx 4 rfl).1 (by decide)

/-- C3: when neither the offset itself nor any of the four probed neighbors
has an entry with a non-empty scope list — absent entries and entries with
an absent or empty `accessible_scopes` field alike — resolution returns the
sentinel `"unmapped"`; `infer_function_scope` is a total function, so it
never raises. -/
theorem C3_no_match_unmapped (idx : DebugIndex) (offset : Int)
    (h0 : entryScopes idx offset = [])
    (h1 : entryScopes idx (offset + 1) = [])
    (h2 : entryScopes idx (offset + (-1)) = [])
    (h3 : entryScopes idx (offset + 2) = [])
    (h4 : entryScopes idx (offset + (-2)) = []) :
    infer_function_scope offset idx = "unmapped" := by
  cases he : idx offset with
  | none =>
    rw [infer_of_none idx offset he,
      probeNeighbors_skip idx offset 1 [-1, 2, -2] h1,
      probeNeighbors_skip idx offset (-1) [2, -2] h2,
      probeNeighbors_skip idx offset 2 [-2] h3,
      probeNeighbors_skip idx offset (-2) [] h4]
    rfl
  | some e =>
    have hs : scopesOf e = [] := by simpa [entryScopes, he] using h0
    rw [infer_of_some idx offset e he, hs]
    simp

/-- Witness for C3 at offset 20 of the sample index, whose own entry exists
with an empty scope list and whose neighbors are all absent. -/
theorem C3_witness : infer_function_scope 20 sIdx = "unmapped" :=
  C3_no_match_unmapped sIdx 20 (by decide) (by decide) (by decide) (by decide) (by decide)

/-- C9: an entry whose `accessible_scopes` field is absent is treated
exactly like an empty scope list — a direct hit on it returns `"unmapped"`
and the probe loop skips over it — rather than raising. -/
theorem C9_missing_scopes_field (idx : DebugIndex) (offset : Int) :
    (∀ e, idx offset = some e → e.accessible_scopes = none →
      infer_function_scope offset idx = "unmapped") ∧
    (∀ e1 e2, idx offset = none →
      idx (offset + 1) = some e1 → e1.accessible_scopes = none →
      idx (offset + (-1)) = some e2 → ∀ h : scopesOf e2 ≠ [],
      infer_function_scope offset idx = (scopesOf e2).getLast h) := by
  constructor
  · intro e he hnone
    have hs : scopesOf e = [] := by simp [scopesOf, hnone]
    rw [infer_of_some idx offset e he, hs]
    simp
  · intro e1 e2 habs he1 hnone he2 h
    have hs1 : entryScopes idx (offset + 1) = [] := by
      simp [entryScopes, he1, scopesOf, hnone]
    have hs2 : entryScopes idx (offset + (-1)) = scopesOf e2 := by
      simp [entryScopes, he2]
    have h2 : entryScopes idx (offset + (-1)) ≠ [] := by rw [hs2]; exact h
    rw [infer_of_none idx offset habs,
      probeNeighbors_skip idx offset 1 [-1, 2, -2] hs1,
      probeNeighbors_hit idx offset (-1) [2, -2] h2]
    exact List.getLast_congr _ _ hs2

/-- Witness for C9: offset 7 of the sample index holds an entry without
the field, and resolving offset 6 skips that entry at `6 + 1` and answers
from `6 - 1 = 5`. -/
theorem C9_witness :
    infer_function_scope 7 sIdx = "unmapped" ∧
    infer_function_scope 6 sIdx = (scopesOf ⟨some ["a.c"]⟩).getLast (by decide) :=
  ⟨(C9_missing_scopes_field sIdx 7).1 ⟨none⟩ rfl rfl,
   (C9_missing_scopes_field sIdx 6).2 ⟨none⟩ ⟨some ["a.c"]⟩ rfl rfl rfl rfl (by decide)⟩

/-- Sum of `p.2 * g p.1` over all entries of the mapping. -/
def entrySum {α : Type} (g : α → Nat) (m : List (α × Nat)) : Nat :=
  (m.map (fun p => p.2 * g p.1)).sum

/-- Bumping a key adds exactly to one total. -/
theorem totalCount_bump {α : Type} [DecidableEq α] (m : List (α × Nat)) (k : α) (c : Nat) :
    totalCount (bump m k c) = totalCount m + c := by
  induction m with
  | nil => simp [bump, totalCount]
  | cons p rest ih =>
    by_cases hp : p.1 = k
    · simp [bump, hp, totalCount]
      omega
    · simp [bump, hp, totalCount] at ih ⊢
      omega

/-- Bumping a key adds `c * g k` to the weighted entry sum. -/
theorem entrySum_bump {α : Type} [DecidableEq α] (g : α → Nat) (m : List (α × Nat))
    (k : α) (c : Nat) :
    entrySum g (bump m k c) = entrySum g m + c * g k := by
  induction m with
  | nil => simp [bump, entrySum]
  | cons p rest ih =>
    by_cases hp : p.1 = k
    · simp [bump, hp, entrySum]
      subst hp
      ring
    · simp [bump, hp, entrySum] at ih ⊢
      omega

/-- Bumping `k` adds `c` to the count read at `k` and nothing elsewhere. -/
theorem lookupCount_bump {α : Type} [DecidableEq α] (m : List (α × Nat)) (k q : α) (c : Nat) :
    lookupCount (bump m k c) q = lookupCount m q + (if q = k then c else 0) := by
  induction m with
  | nil =>
    simp only [bump, lookupCount]
    by_cases hq : q = k
    · subst hq; simp
    · have hk : ¬ k = q := fun h => hq h.symm
      simp [hq, hk]
  | cons p rest ih =>
    by_cases hp : p.1 = k
    · simp only [bump, if_pos hp, lookupCount]
      by_cases hq : p.1 = q
      · have hqk : q = k := hq.symm.trans hp
        rw [if_pos hq, if_pos hq, if_pos hqk]
      · have hqk : ¬ q = k := fun h => hq (hp.trans h.symm)
        rw [if_neg hq, if_neg hq, if_neg hqk, Nat.add_zero]
    · simp only [bump, if_neg hp, lookupCount]
      by_cases hq : p.1 = q
      · have hqk : ¬ q = k := fun h => hp (hq.trans h)
        rw [if_pos hq, if_pos hq, if_neg hqk, Nat.add_zero]
      · rw [if_neg hq, if_neg hq, ih]

/-- A key of a bumped mapping is the bumped key or a key already present. -/
theorem mem_bump_key {α : Type} [DecidableEq α] (m : List (α × Nat)) (k : α) (c : Nat) :
    ∀ p ∈ bump m k c, p.1 = k ∨ p.1 ∈ m.map Prod.fst := by
  induction m with
  | nil => simp [bump]
  | cons q rest ih =>
    intro p hp
    by_cases hq : q.1 = k
    · rw [show bump (q :: rest) k c = (q.1, q.2 + c) :: rest from by
        simp only [bump, if_pos hq]] at hp
      rcases List.mem_cons.mp hp with h | h
      · left; rw [h]; exact hq
      · right; exact List.mem_map.mpr ⟨p, List.mem_cons_of_mem q h, rfl⟩
    · rw [show bump (q :: rest) k c = q :: bump rest k c from by
        simp only [bump, if_neg hq]] at hp
      rcases List.mem_cons.mp hp with h | h
      · right; exact List.mem_map.mpr ⟨p, by simp [h], rfl⟩
      · rcases ih p h with h1 | h1
        · left; exact h1
        · right
          rcases List.mem_map.mp h1 with ⟨r, hr, hr2⟩
          exact List.mem_map.mpr ⟨r, List.mem_cons_of_mem q hr, hr2⟩

/-- All values of a bumped mapping stay positive when the bump is. -/
theorem bump_pos {α : Type} [DecidableEq α] (m : List (α × Nat)) (k : α) (c : Nat)
    (hm : ∀ p ∈ m, 0 < p.2) (hc : 0 < c) : ∀ p ∈ bump m k c, 0 < p.2 := by
  induction m with
  | nil =>
    intro p hp
    simp [bump] at hp
    simp [hp, hc]
  | cons q rest ih =>
    intro p hp
    by_cases hq : q.1 = k
    · simp [bump, hq] at hp
      rcases hp with h | h
      · have := hm q (by simp)
        simp [h]; omega
      · exact hm p (by simp [h])
    · simp [bump, hq] at hp
      rcases hp with h | h
      · exact hm p (by simp [h])
      · exact ih (fun p hp => hm p (by simp [hp])) p h

/-- Presence among the keys is the same as a positive count, for mappings
with positive values. -/
theorem mem_keys_iff_lookup_pos {α : Type} [DecidableEq α] (m : List (α × Nat))
    (hm : ∀ p ∈ m, 0 < p.2) (k : α) :
    k ∈ m.map Prod.fst ↔ 0 < lookupCount m k := by
  induction m with
  | nil => simp [lookupCount]
  | cons p rest ih =>
    have hrest := ih fun q hq => hm q (List.mem_cons_of_mem p hq)
    by_cases hp : p.1 = k
    · simp only [List.map_cons, List.mem_cons, lookupCount, if_pos hp]
      constructor
      · intro _; exact hm p (List.mem_cons_self p rest)
      · intro _; exact Or.inl hp.symm
    · simp only [List.map_cons, List.mem_cons, lookupCount, if_neg hp]
      constructor
      · rintro (h | h)
        · exact absurd h.symm hp
        · exact hrest.mp h
      · intro h; exact Or.inr (hrest.mpr h)

/-- Total count of a fold of bumps: one addition per folded element. -/
theorem totalCount_foldl_bump {α β : Type} [DecidableEq α] (κ : β → α) (γ : β → Nat) :
    ∀ (l : List β) (acc : List (α × Nat)),
      totalCount (l.foldl (fun m b => bump m (κ b) (γ b)) acc)
        = totalCount acc + (l.map γ).sum := by
  intro l
  induction l with
  | nil => intro acc; simp
  | cons b l ih =>
    intro acc
    rw [List.foldl_cons, ih, totalCount_bump, List.map_cons, List.sum_cons]
    omega

/-- Count read at `s` after a fold of bumps. -/
theorem lookupCount_foldl_bump {α β : Type} [DecidableEq α] (κ : β → α) (γ : β → Nat)
    (s : α) :
    ∀ (l : List β) (acc : List (α × Nat)),
      lookupCount (l.foldl (fun m b => bump m (κ b) (γ b)) acc) s
        = lookupCount acc s + (l.map (fun b => γ b * (if s = κ b then 1 else 0))).sum := by
  intro l
  induction l with
  | nil => intro acc; simp
  | cons b l ih =>
    intro acc
    rw [List.foldl_cons, ih, lookupCount_bump, List.map_cons, List.sum_cons]
    by_cases hs : s = κ b
    · rw [if_pos hs, if_pos hs]
      omega
    · rw [if_neg hs, if_neg hs]
      omega

/-- Weighted entry sum after a fold of bumps. -/
theorem entrySum_foldl_bump {α β : Type} [DecidableEq α] (g : α → Nat) (κ : β → α)
    (γ : β → Nat) :
    ∀ (l : List β) (acc : List (α × Nat)),
      entrySum g (l.foldl (fun m b => bump m (κ b) (γ b)) acc)
        = entrySum g acc + (l.map (fun b => γ b * g (κ b))).sum := by
  intro l
  induction l with
  | nil => intro acc; simp
  | cons b l ih =>
    intro acc
    rw [List.foldl_cons, ih, entrySum_bump, List.map_cons, List.sum_cons]
    omega

/-- Values stay positive through a fold of positive bumps. -/
theorem foldl_bump_pos {α β : Type} [DecidableEq α] (κ : β → α) (γ : β → Nat) :
    ∀ (l : List β) (acc : List (α × Nat)), (∀ p ∈ acc, 0 < p.2) → (∀ b ∈ l, 0 < γ b) →
      ∀ p ∈ l.foldl (fun m b => bump m (κ b) (γ b)) acc, 0 < p.2 := by
  intro l
  induction l with
  | nil => intro acc hacc _; exact hacc
  | cons b l ih =>
    intro acc hacc hl p hp
    rw [List.foldl_cons] at hp
    exact ih (bump acc (κ b) (γ b))
      (bump_pos acc (κ b) (γ b) hacc (hl b (List.mem_cons_self b l)))
      (fun b hb => hl b (List.mem_cons_of_mem _ hb)) p hp

/-- Every key after a fold of bumps was already a key or is a folded key. -/
theorem foldl_bump_keys {α β : Type} [DecidableEq α] (κ : β → α) (γ : β → Nat) :
    ∀ (l : List β) (acc : List (α × Nat)) (p : α × Nat),
      p ∈ l.foldl (fun m b => bump m (κ b) (γ b)) acc →
      p.1 ∈ acc.map Prod.fst ∨ ∃ b ∈ l, p.1 = κ b := by
  intro l
  induction l with
  | nil =>
    intro acc p hp
    left; exact List.mem_map.mpr ⟨p, hp, rfl⟩
  | cons b l ih =>
    intro acc p hp
    rw [List.foldl_cons] at hp
    rcases ih (bump acc (κ b) (γ b)) p hp with h | h
    · rcases List.mem_map.mp h with ⟨q, hq, hq2⟩
      rcases mem_bump_key acc (κ b) (γ b) q hq with h1 | h1
      · right; exact ⟨b, List.mem_cons_self b l, hq2 ▸ h1⟩
      · left; rw [← hq2]; exact h1
    · rcases h with ⟨b1, hb1, he⟩
      right; exact ⟨b1, List.mem_cons_of_mem b hb1, he⟩

/-- A successful read of the trace counts every row exactly once. -/
theorem readTrace_ok_total :
    ∀ (rows : List String) (acc pcc : List (Int × Nat)),
      readTrace rows acc = Except.ok pcc →
      totalCount pcc = totalCount acc + rows.length := by
  intro rows
  induction rows with
  | nil =>
    intro acc pcc h
    simp only [readTrace, Except.ok.injEq] at h
    simp [← h]
  | cons s rest ih =>
    intro acc pcc h
    cases hp : parsePc s with
    | some pc =>
      simp only [readTrace, hp] at h
      rw [ih (bump acc pc 1) pcc h, totalCount_bump, List.length_cons]
      omega
    | none =>
      simp only [readTrace, hp] at h
      exact Except.noConfusion h

/-- Reading stops at the first unparsable row, with that row's literal. -/
theorem readTrace_error (bad : String) (hbad : parsePc bad = none) (rest : List String) :
    ∀ (pre : List String) (acc : List (Int × Nat)),
      (∀ s ∈ pre, (parsePc s).isSome = true) →
      readTrace (pre ++ bad :: rest) acc = Except.error bad := by
  intro pre
  induction pre with
  | nil =>
    intro acc _
    simp only [List.nil_append, readTrace, hbad]
  | cons s pre ih =>
    intro acc hpre
    have hs := hpre s (List.mem_cons_self s pre)
    cases hp : parsePc s with
    | none => rw [hp] at hs; simp at hs
    | some pc =>
      simp only [List.cons_append, readTrace, hp]
      exact ih (bump acc pc 1) fun t ht => hpre t (List.mem_cons_of_mem s ht)

/-- C4: on a fully parsed stream the aggregated scope counts sum to the
number of trace records, every count is non-negative, and the empty stream
yields the empty mapping rather than an error. -/
theorem C4_total_conservation (idx : DebugIndex) (rows : List String)
    (m : List (String × Nat)) (h : parse_trace_and_profile idx rows = Except.ok m) :
    totalCount m = rows.length ∧ (∀ p ∈ m, 0 ≤ p.2) ∧
    parse_trace_and_profile idx [] = Except.ok [] := by
  refine ⟨?_, fun p _ => Nat.zero_le p.2, rfl⟩
  cases hr : readTrace rows [] with
  | error e =>
    rw [parse_trace_and_profile, hr] at h
    simp [Except.map] at h
  | ok pcc =>
    rw [parse_trace_and_profile, hr] at h
    simp only [Except.map, Except.ok.injEq] at h
    have h1 : totalCount (scopeCountsOf idx pcc)
        = totalCount ([] : List (String × Nat)) + (pcc.map Prod.snd).sum :=
      totalCount_foldl_bump (fun oc : Int × Nat => infer_function_scope oc.1 idx)
        Prod.snd pcc []
    have h2 : totalCount pcc = totalCount ([] : List (Int × Nat)) + rows.length :=
      readTrace_ok_total rows [] pcc hr
    rw [← h, h1]
    simp only [totalCount] at h2 ⊢
    simpa using h2

/-- Witness for C4 on the sample index and a six-row trace. -/
theorem C4_witness :
    totalCount [("a.b", 3), ("a.c", 2), ("unmapped", 1)]
        = (["0", "0", "0x1", "5", "6", "99"] : List String).length ∧
    (∀ p ∈ ([("a.b", 3), ("a.c", 2), ("unmapped", 1)] : List (String × Nat)), 0 ≤ p.2) ∧
    parse_trace_and_profile sIdx [] = Except.ok [] :=
  C4_total_conservation sIdx ["0", "0", "0x1", "5", "6", "99"]
    [("a.b", 3), ("a.c", 2), ("unmapped", 1)] rfl

/-- C5: the two-phase aggregation (count occurrences per offset, then
resolve once per distinct offset) yields the same scope-count mapping as
the naive loop that resolves every record: the count read at every scope is
equal, and the two key sets coincide. -/
theorem C5_two_phase_eq_naive (idx : DebugIndex) (pcs : List Int) (s : String) :
    lookupCount (scopeCountsOf idx (pcCountsOf pcs)) s
      = lookupCount (naive_profile idx pcs) s ∧
    (s ∈ (scopeCountsOf idx (pcCountsOf pcs)).map Prod.fst
      ↔ s ∈ (naive_profile idx pcs).map Prod.fst) := by
  have htwo : lookupCount (scopeCountsOf idx (pcCountsOf pcs)) s
      = (pcs.map (fun pc =>
          (if s = infer_function_scope pc idx then 1 else 0))).sum := by
    have h1 : lookupCount (scopeCountsOf idx (pcCountsOf pcs)) s
        = lookupCount ([] : List (String × Nat)) s
          + ((pcCountsOf pcs).map (fun oc =>
              oc.2 * (if s = infer_function_scope oc.1 idx then 1 else 0))).sum :=
      lookupCount_foldl_bump (fun oc : Int × Nat => infer_function_scope oc.1 idx)
        Prod.snd s (pcCountsOf pcs) []
    have h2 : entrySum (fun o => if s = infer_function_scope o idx then 1 else 0)
          (pcCountsOf pcs)
        = entrySum (fun o => if s = infer_function_scope o idx then 1 else 0)
            ([] : List (Int × Nat))
          + (pcs.map (fun pc =>
              1 * (if s = infer_function_scope pc idx then 1 else 0))).sum :=
      entrySum_foldl_bump (fun o => if s = infer_function_scope o idx then 1 else 0)
        (fun pc : Int => pc) (fun _ => 1) pcs []
    rw [h1]
    simp only [lookupCount, entrySum, Nat.zero_add, List.map_nil, List.sum_nil] at h2 ⊢
    rw [h2]
    simp
  have hnaive : lookupCount (naive_profile idx pcs) s
      = (pcs.map (fun pc =>
          (if s = infer_function_scope pc idx then 1 else 0))).sum := by
    have h1 : lookupCount (naive_profile idx pcs) s
        = lookupCount ([] : List (String × Nat)) s
          + (pcs.map (fun pc =>
              1 * (if s = infer_function_scope pc idx then 1 else 0))).sum :=
      lookupCount_foldl_bump (fun pc : Int => infer_function_scope pc idx)
        (fun _ => 1) s pcs []
    rw [h1]
    simp [lookupCount]
  have hlook := htwo.trans hnaive.symm
  refine ⟨hlook, ?_⟩
  have hpos2 : ∀ p ∈ scopeCountsOf idx (pcCountsOf pcs), 0 < p.2 := by
    have hpcc : ∀ oc ∈ pcCountsOf pcs, 0 < oc.2 :=
      foldl_bump_pos (fun pc : Int => pc) (fun _ => 1) pcs []
        (by intro p hp; simp at hp) (by intro b _; exact Nat.one_pos)
    exact foldl_bump_pos (fun oc : Int × Nat => infer_function_scope oc.1 idx)
      Prod.snd (pcCountsOf pcs) [] (by intro p hp; simp at hp) hpcc
  have hposn : ∀ p ∈ naive_profile idx pcs, 0 < p.2 :=
    foldl_bump_pos (fun pc : Int => infer_function_scope pc idx) (fun _ => 1) pcs []
      (by intro p hp; simp at hp) (by intro b _; exact Nat.one_pos)
  rw [mem_keys_iff_lookup_pos _ hpos2 s, mem_keys_iff_lookup_pos _ hposn s, hlook]

/-- C8 (amended): an unparsable pc value makes the whole aggregation abort
with an error carrying that offending literal; no scope counts are
returned. -/
theorem C8_fail_fast (idx : DebugIndex) (pre : List String) (bad : String)
    (rest : List String) (hpre : ∀ s ∈ pre, (parsePc s).isSome = true)
    (hbad : parsePc bad = none) :
    parse_trace_and_profile idx (pre ++ bad :: rest) = Except.error bad := by
  rw [parse_trace_and_profile, readTrace_error bad hbad rest pre [] hpre]
  rfl

/-- Witness for C8: `"zz"` in the second row aborts the aggregation. -/
theorem C8_witness :
    parse_trace_and_profile sIdx (["1"] ++ "zz" :: ["2"]) = Except.error "zz" :=
  C8_fail_fast sIdx ["1"] "zz" ["2"] (by decide) rfl

/-- Counterexample for C8 as stated: streams with the offending value at
ordinal position 1 and at ordinal position 2 produce the identical error —
a bare `ValueError` on the literal — so the error does not include the
offending row's ordinal position. -/
theorem C8_counterexample :
    parse_trace_and_profile sIdx ["zz", "1"] = Except.error "zz" ∧
    parse_trace_and_profile sIdx ["1", "zz"] = Except.error "zz" :=
  ⟨rfl, rfl⟩

/-- Any probe result is the sentinel or the last scope of some entry. -/
theorem probeNeighbors_cases (idx : DebugIndex) (offset : Int) :
    ∀ ds : List Int, probeNeighbors offset idx ds = "unmapped" ∨
      ∃ (o : Int) (e : DebugEntry) (hne : scopesOf e ≠ []),
        idx o = some e ∧ probeNeighbors offset idx ds = (scopesOf e).getLast hne := by
  intro ds
  induction ds with
  | nil => left; rfl
  | cons d rest ih =>
    cases he : idx (offset + d) with
    | none =>
      rw [probeNeighbors_skip idx offset d rest (by simp [entryScopes, he])]
      exact ih
    | some e =>
      by_cases hs : scopesOf e = []
      · rw [probeNeighbors_skip idx offset d rest (by simp [entryScopes, he, hs])]
        exact ih
      · right
        have hent : entryScopes idx (offset + d) ≠ [] := by
          simpa [entryScopes, he] using hs
        refine ⟨offset + d, e, hs, he, ?_⟩
        rw [probeNeighbors_hit idx offset d rest hent]
        exact List.getLast_congr hent hs (by simp [entryScopes, he])

/-- Any resolution result is the sentinel or the last scope of some entry. -/
theorem infer_cases (idx : DebugIndex) (offset : Int) :
    infer_function_scope offset idx = "unmapped" ∨
    ∃ (o : Int) (e : DebugEntry) (hne : scopesOf e ≠ []),
      idx o = some e ∧ infer_function_scope offset idx = (scopesOf e).getLast hne := by
  cases he : idx offset with
  | some e =>
    by_cases hs : scopesOf e = []
    · left
      rw [infer_of_some idx offset e he, hs]
      simp
    · right
      refine ⟨offset, e, hs, he, ?_⟩
      rw [infer_of_some idx offset e he, if_pos hs]
      exact getLastBang_eq hs
  | none =>
    rw [infer_of_none idx offset he]
    exact probeNeighbors_cases idx offset [1, -1, 2, -2]

/-- C10: after a successful aggregation every key of the scope-count
mapping is either the sentinel `"unmapped"` or the last element of the
`accessible_scopes` list of some entry of the index. -/
theorem C10_keys_from_index (idx : DebugIndex) (rows : List String)
    (m : List (String × Nat)) (h : parse_trace_and_profile idx rows = Except.ok m) :
    ∀ p ∈ m, p.1 = "unmapped" ∨
      ∃ (o : Int) (e : DebugEntry) (hne : scopesOf e ≠ []),
        idx o = some e ∧ p.1 = (scopesOf e).getLast hne := by
  intro p hp
  cases hr : readTrace rows [] with
  | error e =>
    rw [parse_trace_and_profile, hr] at h
    simp [Except.map] at h
  | ok pcc =>
    rw [parse_trace_and_profile, hr] at h
    simp only [Except.map, Except.ok.injEq] at h
    have hmem : p ∈ scopeCountsOf idx pcc := by rw [h]; exact hp
    have hk := foldl_bump_keys (fun oc : Int × Nat => infer_function_scope oc.1 idx)
      Prod.snd pcc [] p hmem
    rcases hk with h1 | h1
    · simp at h1
    · rcases h1 with ⟨oc, _, he⟩
      rcases infer_cases idx oc.1 with hu | ⟨o, e, hne, hoe, hlast⟩
      · left; rw [he]; exact hu
      · right; exact ⟨o, e, hne, hoe, he.trans hlast⟩

/-- Witness for C10: the key `"a.b"` of the sample aggregation is the last
scope of the entry at offset 0. -/
theorem C10_witness :
    ("a.b", (3 : Nat)).1 = "unmapped" ∨
    ∃ (o : Int) (e : DebugEntry) (hne : scopesOf e ≠ []),
      sIdx o = some e ∧ ("a.b", (3 : Nat)).1 = (scopesOf e).getLast hne :=
  C10_keys_from_index sIdx ["0", "0", "0x1", "5", "6", "99"]
    [("a.b", 3), ("a.c", 2), ("unmapped", 1)] rfl ("a.b", 3) (by decide)

instance : IsTotal (String × Nat) (fun a b => b.2 ≤ a.2) :=
  ⟨fun a b => Nat.le_total b.2 a.2⟩

instance : IsTrans (String × Nat) (fun a b => b.2 ≤ a.2) :=
  ⟨fun _ _ _ h1 h2 => Nat.le_trans h2 h1⟩

/-- A list sorted by not-increasing count has adjacent counts descending. -/
theorem descByCount_of_sorted :
    ∀ l : List (String × Nat),
      List.Sorted (fun a b => b.2 ≤ a.2) l → descByCount l = true := by
  intro l
  induction l with
  | nil => intro _; rfl
  | cons x l ih =>
    intro hs
    rcases List.sorted_cons.mp hs with ⟨hx, hl⟩
    cases l with
    | nil => rfl
    | cons y r =>
      simp only [descByCount, Bool.and_eq_true, decide_eq_true_eq]
      exact ⟨hx y (List.mem_cons_self y r), ih hl⟩

/-- Inserting into a list moves the new element past strictly larger counts
only, so the sublist of any fixed count gains the new element at its end
(when counts match) and is otherwise untouched. -/
theorem filter_orderedInsert (x : String × Nat) (c : Nat) :
    ∀ s : List (String × Nat),
      (List.orderedInsert (fun a b => b.2 ≤ a.2) x s).filter (fun p => decide (p.2 = c))
        = (if x.2 = c then [x] else []) ++ s.filter (fun p => decide (p.2 = c)) := by
  intro s
  induction s with
  | nil =>
    by_cases hx : x.2 = c
    · simp [List.orderedInsert, hx]
    · simp [List.orderedInsert, hx]
  | cons y ys ih =>
    by_cases hr : y.2 ≤ x.2
    · rw [List.orderedInsert, if_pos hr]
      by_cases hx : x.2 = c
      · simp [List.filter_cons, hx]
      · simp [List.filter_cons, hx]
    · rw [List.orderedInsert, if_neg hr]
      rw [List.filter_cons, List.filter_cons]
      by_cases hy : y.2 = c
      · by_cases hx : x.2 = c
        · exfalso; omega
        · simp [hy, hx, ih]
      · by_cases hx : x.2 = c
        · simp [hy, hx, ih]
        · simp [hy, hx, ih]

/-- Elements of any fixed count keep their input order through `rank`. -/
theorem filter_rank (m : List (String × Nat)) (c : Nat) :
    (rank m).filter (fun p => decide (p.2 = c)) = m.filter (fun p => decide (p.2 = c)) := by
  induction m with
  | nil => rfl
  | cons a m ih =>
    simp only [rank] at ih ⊢
    rw [List.insertionSort, filter_orderedInsert a c, ih, List.filter_cons]
    by_cases ha : a.2 = c
    · simp [ha]
    · simp [ha]

/-- C6 (amended): `rank` sorts the pairs by descending count with no
truncation, and it is a stable sort — pairs of equal count keep the order
they had in the scope-count mapping (its insertion order), rather than
being re-ordered lexically. -/
theorem C6_rank_stable_desc (m : List (String × Nat)) :
    descByCount (rank m) = true ∧ (rank m).Perm m ∧
    ∀ c : Nat, (rank m).filter (fun p => decide (p.2 = c))
      = m.filter (fun p => decide (p.2 = c)) := by
  refine ⟨?_, List.perm_insertionSort _ m, fun c => filter_rank m c⟩
  exact descByCount_of_sorted (rank m) (List.sorted_insertionSort _ m)

/-- An index whose scope identifiers appear in non-lexical order across two
equally hot offsets. -/
def tieIdx : DebugIndex := fun o =>
  if o = 0 then some ⟨some ["b"]⟩
  else if o = 10 then some ⟨some ["a"]⟩
  else none

/-- Counterexample for C6 as stated: a reachable scope-count mapping with
two equal counts whose ranked output keeps `"b"` before `"a"`, not the
claimed ascending lexical order of tied scope identifiers. -/
theorem C6_counterexample :
    parse_trace_and_profile tieIdx ["0", "10"] = Except.ok [("b", 1), ("a", 1)] ∧
    rank [("b", 1), ("a", 1)] = [("b", 1), ("a", 1)] ∧
    lexTiesAsc (rank [("b", 1), ("a", 1)]) = false :=
  ⟨rfl, rfl, rfl⟩

/-- C7: a pc string is parsed base-16 exactly when it starts with the
case-sensitive prefix `0x`, and base-10 otherwise: `"0x1"` is hex 1 and
contributes one occurrence to offset 1, `"0X1"` falls to base 10 and fails,
`"16"` is decimal sixteen while `"0x10"` is hex sixteen. -/
theorem C7_base_selection :
    (∀ s : String, startsWith0x s = true → parsePc s = pyInt s 16) ∧
    (∀ s : String, startsWith0x s = false → parsePc s = pyInt s 10) ∧
    parsePc "0x1" = some 1 ∧ parsePc "0X1" = none ∧
    parsePc "16" = some 16 ∧ parsePc "0x10" = some 16 ∧
    readTrace ["0x1"] [] = Except.ok [(1, 1)] := by
  refine ⟨fun s h => ?_, fun s h => ?_, rfl, rfl, rfl, rfl, rfl⟩
  · simp [parsePc, h]
  · simp [parsePc, h]

/-- Witness for C7 on a hex-looking and a decimal-looking row. -/
theorem C7_witness :
    parsePc "0xff" = pyInt "0xff" 16 ∧ parsePc "255" = pyInt "255" 10 :=
  ⟨C7_base_selection.1 "0xff" rfl, C7_base_selection.2.1 "255" rfl⟩

end CairoProfiler
